/-
Verification of the chunked matrix-multiplication engine in
scripts/gpu_matmul.py.

Shallow embedding. 2-D dense arrays become the structure `Mat`: a pair of
extents plus a total data function; only entries with `i < rows`,
`j < cols` are meaningful, and `Mat.Eq` compares exactly those.
Exact arithmetic (Int) stands in for the float element types, as the
spec's equivalence properties are stated up to element datatype.

The embedded operations, each traced from the source:
  * `matmul`       — xp.matmul / xp.dot
  * `colSlice`     — B[:, start:stop] with numpy clamping semantics
  * `hconcat`      — concatenation of two arrays along axis 1
  * `concat`       — the script's `concat` assembler (da.concatenate of a
                     list is folded pairwise; the sub-split width is a
                     parameter, instantiated with SPLIT_SIZE at call sites)
  * `pyRange`      — Python range(start, stop, step) for step ≥ 1
  * `loopState`    — the state (AB, prev_i) after k iterations of the
                     column-block loop
  * `blockedResult`— the blocked-mode result: loop followed by final flush
  * `mainMode`     — the direct/blocked selection condition
  * `mainRun`      — the observable outcome of main: exit code, error
                     diagnostic, saved artifact, number of multiplies
-/
import Mathlib

namespace GpuMatmul

/-- Constants from the script. -/
def GPU_IND_LIMIT : Nat := 250000000

def GPU_COL_LIMIT : Nat := 5000

def SPLIT_SIZE : Nat := 500

/-- A dense 2-D array: extents plus a total data function. -/
structure Mat where
  rows : Nat
  cols : Nat
  data : Nat → Nat → Int

/-- Logical (element-for-element) equality of arrays: same shape and the
same entries at every in-range position. -/
def Mat.Eq (X Y : Mat) : Prop :=
  X.rows = Y.rows ∧ X.cols = Y.cols ∧
    ∀ i j, i < X.rows → j < X.cols → X.data i j = Y.data i j

/-- `xp.matmul A B` / `xp.dot A B`: the (i,j) entry is the dot product of
row i of A with column j of B; the shared extent is A.cols. -/
def matmul (A B : Mat) : Mat where
  rows := A.rows
  cols := B.cols
  data := fun i j => ∑ l ∈ Finset.range A.cols, A.data i l * B.data l j

/-- `B[:, start:stop]`: numpy slicing clamps both bounds to the number of
columns, so the width is `min stop cols - min start cols` and column j of
the slice is column `min start cols + j` of B. -/
def colSlice (B : Mat) (start stop : Nat) : Mat where
  rows := B.rows
  cols := min stop B.cols - min start B.cols
  data := fun i j => B.data i (min start B.cols + j)

/-- `da.from_array`: a lazy view; content is unchanged. -/
def da_from_array (M : Mat) : Mat := M

/-- `xp.asnumpy`: device-to-host transfer; content is unchanged. -/
def asnumpy (M : Mat) : Mat := M

/-- Concatenation of two arrays along axis 1. -/
def hconcat (X Y : Mat) : Mat where
  rows := X.rows
  cols := X.cols + Y.cols
  data := fun i j => if j < X.cols then X.data i j else Y.data i (j - X.cols)

/-- The script's `concat(AB, AB_js_n, axis)` with axis = 1.  `AB is None`
becomes the `none` case.  Otherwise the new block is cut into
`nsplits = floor(cols / split)` full sub-slices, `da.concatenate` of the
list `[AB] ++ sliced` is folded pairwise from the left, and when
`cols mod split > 0` one further slice `[nsplits*split, nsplits*split + split)`
(clamped at the right edge by numpy) is concatenated.  The script fixes
`split = SPLIT_SIZE`; it is a parameter here so the sub-split width can be
quantified over. -/
def concat (AB : Option Mat) (blk : Mat) (split : Nat) : Mat :=
  match AB with
  | none => da_from_array blk
  | some acc =>
      let nsplits := blk.cols / split
      let sliced := (List.range nsplits).map fun ind =>
        da_from_array (colSlice blk (ind * split) (ind * split + split))
      let acc2 := sliced.foldl hconcat acc
      if blk.cols % split > 0 then
        hconcat acc2
          (da_from_array (colSlice blk (nsplits * split) (nsplits * split + split)))
      else acc2

/-- Length of Python `range(start, stop, step)` for `step ≥ 1`. -/
def pyRangeLen (start stop step : Nat) : Nat := (stop - start + step - 1) / step

/-- Python `range(start, stop, step)` for `step ≥ 1`. -/
def pyRange (start stop step : Nat) : List Nat :=
  List.range' start (pyRangeLen start stop step) step

/-- One iteration of the blocked loop: from state `(AB, prev_i)` and bound
`i`, compute `A · B[:, prev_i:i]`, transfer to host, append, advance. -/
def loopStep (A B : Mat) (s : Option Mat × Nat) (i : Nat) : Option Mat × Nat :=
  (some (concat s.1 (asnumpy (matmul A (colSlice B s.2 i))) SPLIT_SIZE), i)

/-- State `(AB, prev_i)` after the first `k` iterations of
`for i in range(w, B.cols, w)`, starting from `(None, 0)`. -/
def loopState (A B : Mat) (w k : Nat) : Option Mat × Nat :=
  (List.range' w k w).foldl (loopStep A B) (none, 0)

/-- Blocked-mode result: run the whole loop, then the final flush
`concat(AB, asnumpy(A · B[:, prev_i:]))`. -/
def blockedResult (A B : Mat) (w : Nat) : Mat :=
  let s := loopState A B w (pyRangeLen w B.cols w)
  concat s.1 (asnumpy (matmul A (colSlice B s.2 B.cols))) SPLIT_SIZE

/-- One iteration of the loop at the level of column ranges: record the
half-open range `[prev_i, i)` and advance the cursor. -/
def rangeStep (s : List (Nat × Nat) × Nat) (i : Nat) : List (Nat × Nat) × Nat :=
  (s.1 ++ [(s.2, i)], i)

/-- Ranges recorded by the first `k` loop iterations, with the cursor. -/
def loopRangesState (w k : Nat) : List (Nat × Nat) × Nat :=
  (List.range' w k w).foldl rangeStep ([], 0)

/-- The cursor `prev_i` at the moment of the final flush. -/
def finalPrev (n w : Nat) : Nat := (loopRangesState w (pyRangeLen w n w)).2

/-- All column ranges processed in blocked mode, in processing order: the
loop ranges followed by the final flush range `[prev_i, n)`. -/
def blockRanges (n w : Nat) : List (Nat × Nat) :=
  let s := loopRangesState w (pyRangeLen w n w)
  s.1 ++ [(s.2, n)]

/-- Appending the blocks of a list of column ranges to the assembler, in
list order. -/
def assembleRanges (A B : Mat) (rs : List (Nat × Nat)) : Option Mat :=
  rs.foldl
    (fun s r => some (concat s (asnumpy (matmul A (colSlice B r.1 r.2))) SPLIT_SIZE))
    none

/-- Execution mode, decided on line 54 of the script: blocked iff not
cpu_only and `A.rows * B.cols > GPU_IND_LIMIT`. -/
inductive Mode where
  | direct
  | blocked
  deriving DecidableEq

def mainMode (A B : Mat) (cpu_only : Bool) : Mode :=
  if !cpu_only && decide (A.rows * B.cols > GPU_IND_LIMIT) then Mode.blocked
  else Mode.direct

/-- Observable outcome of `main` after the matrices are loaded: the process
exit code, the shapes printed in the dimension-mismatch diagnostic (if
any), the array saved to the output file (if any), and how many matrix
multiplications were performed. -/
structure RunOutcome where
  exitCode : Nat
  diagShapes : Option ((Nat × Nat) × (Nat × Nat))
  artifact : Option Mat
  matmulCount : Nat

/-- `main` after loading A and B: on `A.cols ≠ B.rows` print both shapes
and `exit(1)` with no multiplication and no saved output; otherwise
compute in the selected mode and save the result. -/
def mainRun (A B : Mat) (cpu_only : Bool) : RunOutcome :=
  if A.cols ≠ B.rows then
    { exitCode := 1
      diagShapes := some ((A.rows, A.cols), (B.rows, B.cols))
      artifact := none
      matmulCount := 0 }
  else
    match mainMode A B cpu_only with
    | Mode.blocked =>
        { exitCode := 0
          diagShapes := none
          artifact := some (blockedResult A B GPU_COL_LIMIT)
          matmulCount := pyRangeLen GPU_COL_LIMIT B.cols GPU_COL_LIMIT + 1 }
    | Mode.direct =>
        { exitCode := 0
          diagShapes := none
          artifact := some (matmul A B)
          matmulCount := 1 }

/-! ### Concrete fixtures (used by witnesses and counterexamples) -/

/-- Example A of spec scenario 2: shape (2,2). -/
def Aex : Mat := ⟨2, 2, fun i j => (i : Int) + 2 * j⟩

/-- Example B of spec scenario 2: shape (2,5). -/
def Bex : Mat := ⟨2, 5, fun i j => (i : Int) * 10 + j⟩

/-- Mismatched A of spec scenario 3: shape (4,3). -/
def Amis : Mat := ⟨4, 3, fun _ _ => 1⟩

/-- Mismatched B of spec scenario 3: shape (5,4). -/
def Bmis : Mat := ⟨5, 4, fun _ _ => 1⟩

/-- A large left matrix: shape (100000,1), so the product with `Bbig`
has 5·10^8 elements and blocked mode is selected. -/
def Abig : Mat := ⟨100000, 1, fun _ _ => 1⟩

/-- A right matrix whose column count equals the block width exactly:
shape (1,5000). -/
def Bbig : Mat := ⟨1, 5000, fun _ _ => 1⟩

/-- A small accumulated array: shape (1,1). -/
def Wacc : Mat := ⟨1, 1, fun _ _ => 7⟩

/-- A small new block: shape (1,3). -/
def Wblk : Mat := ⟨1, 3, fun _ j => (10 : Int) + j⟩

/-- A block with zero columns: shape (1,0). -/
def Wzero : Mat := ⟨1, 0, fun _ _ => 9⟩

/-! ### Equality infrastructure

`Mat.EqS` is a strengthening of `Mat.Eq` used internally: the data
agreement is required at every row index, not only in-range rows.  All
arrays manipulated by the engine (slices, products, concatenations of
those) have data functions that read their sources totally, so `EqS`
holds between them and is closed under the congruences below. -/

def Mat.EqS (X Y : Mat) : Prop :=
  X.rows = Y.rows ∧ X.cols = Y.cols ∧
    ∀ i j, j < X.cols → X.data i j = Y.data i j

theorem Mat.EqS.toEq {X Y : Mat} (h : Mat.EqS X Y) : Mat.Eq X Y :=
  ⟨h.1, h.2.1, fun i j _ hj => h.2.2 i j hj⟩

theorem Mat.EqS.rfl (X : Mat) : Mat.EqS X X :=
  ⟨Eq.refl _, Eq.refl _, fun _ _ _ => Eq.refl _⟩

theorem Mat.EqS.symm {X Y : Mat} (h : Mat.EqS X Y) : Mat.EqS Y X := by
  obtain ⟨hr, hc, hd⟩ := h
  exact ⟨hr.symm, hc.symm, fun i j hj => (hd i j (hc ▸ hj)).symm⟩

theorem Mat.EqS.trans {X Y Z : Mat} (h1 : Mat.EqS X Y) (h2 : Mat.EqS Y Z) :
    Mat.EqS X Z := by
  obtain ⟨hr1, hc1, hd1⟩ := h1
  obtain ⟨hr2, hc2, hd2⟩ := h2
  exact ⟨hr1.trans hr2, hc1.trans hc2,
    fun i j hj => (hd1 i j hj).trans (hd2 i j (hc1 ▸ hj))⟩

theorem hconcat_congr_left {X Y : Mat} (Z : Mat) (h : Mat.EqS X Y) :
    Mat.EqS (hconcat X Z) (hconcat Y Z) := by
  obtain ⟨hr, hc, hd⟩ := h
  refine ⟨hr, by simp [hconcat, hc], ?_⟩
  intro i j hj
  simp only [hconcat]
  rcases Nat.lt_or_ge j X.cols with hx | hx
  · rw [if_pos hx, if_pos (hc ▸ hx)]
    exact hd i j hx
  · rw [if_neg (by omega), if_neg (by omega), hc]

theorem hconcat_congr_right (X : Mat) {Y Z : Mat} (h : Mat.EqS Y Z) :
    Mat.EqS (hconcat X Y) (hconcat X Z) := by
  obtain ⟨hr, hc, hd⟩ := h
  refine ⟨Eq.refl _, by simp [hconcat, hc], ?_⟩
  intro i j hj
  simp only [hconcat] at hj ⊢
  rcases Nat.lt_or_ge j X.cols with hx | hx
  · rw [if_pos hx, if_pos hx]
  · rw [if_neg (by omega), if_neg (by omega)]
    exact hd i (j - X.cols) (by omega)

theorem hconcat_assoc (X Y Z : Mat) :
    Mat.EqS (hconcat (hconcat X Y) Z) (hconcat X (hconcat Y Z)) := by
  refine ⟨Eq.refl _, by simp [hconcat, Nat.add_assoc], ?_⟩
  intro i j hj
  simp only [hconcat]
  rcases Nat.lt_or_ge j X.cols with hx | hx
  · rw [if_pos (by omega), if_pos hx, if_pos hx]
  · rcases Nat.lt_or_ge j (X.cols + Y.cols) with hy | hy
    · rw [if_pos hy, if_neg (by omega), if_neg (by omega), if_pos (by omega)]
    · rw [if_neg (by omega), if_neg (by omega), if_neg (by omega)]
      congr 1
      omega

theorem hconcat_cols_zero {Y : Mat} (X : Mat) (h : Y.cols = 0) :
    Mat.EqS (hconcat X Y) X := by
  refine ⟨Eq.refl _, by simp [hconcat, h], ?_⟩
  intro i j hj
  simp only [hconcat, h] at hj ⊢
  rw [if_pos (by omega)]

/-- Adjacent column slices of the same array concatenate to the wider
slice; numpy clamping makes this true for all bounds `a ≤ b`. -/
theorem colSlice_join (B : Mat) {a b : Nat} (hab : a ≤ b) :
    Mat.EqS (hconcat (colSlice B 0 a) (colSlice B a b)) (colSlice B 0 b) := by
  have hmin : min a B.cols ≤ min b B.cols := min_le_min hab le_rfl
  refine ⟨Eq.refl _, ?_, ?_⟩
  · simp only [hconcat, colSlice, Nat.zero_min]
    omega
  · intro i j hj
    simp only [hconcat, colSlice, Nat.zero_min, Nat.zero_add] at hj ⊢
    rcases Nat.lt_or_ge j (min a B.cols - 0) with hx | hx
    · rw [if_pos hx]
    · rw [if_neg (by omega)]
      congr 1
      omega

/-- Concatenating with a clamped full-width slice of `blk` is the same as
concatenating with `blk` itself, whenever the slice bound reaches the
end. -/
theorem hconcat_colSlice_ge (acc : Mat) {blk : Mat} {m : Nat}
    (hm : blk.cols ≤ m) : Mat.EqS (hconcat acc (colSlice blk 0 m)) (hconcat acc blk) := by
  have hmin : min m blk.cols = blk.cols := min_eq_right hm
  refine ⟨Eq.refl _, by simp [hconcat, colSlice, hmin, Nat.zero_min], ?_⟩
  intro i j hj
  simp only [hconcat, colSlice, Nat.zero_min, Nat.zero_add]

/-- Column-blocked products of adjacent slices concatenate to the product
of the wider slice. -/
theorem matmul_slice_join (A B : Mat) {a b : Nat} (hab : a ≤ b) :
    Mat.EqS (hconcat (matmul A (colSlice B 0 a)) (matmul A (colSlice B a b)))
      (matmul A (colSlice B 0 b)) := by
  have hmin : min a B.cols ≤ min b B.cols := min_le_min hab le_rfl
  refine ⟨Eq.refl _, ?_, ?_⟩
  · simp only [hconcat, matmul, colSlice, Nat.zero_min]
    omega
  · intro i j hj
    simp only [hconcat, matmul, colSlice, Nat.zero_min, Nat.zero_add] at hj ⊢
    rcases Nat.lt_or_ge j (min a B.cols - 0) with hx | hx
    · rw [if_pos hx]
    · rw [if_neg (by omega)]
      refine Finset.sum_congr (Eq.refl _) fun l _ => ?_
      congr 2
      omega

/-- Multiplying by the full-width slice of `B` is multiplying by `B`. -/
theorem matmul_colSlice_full (A B : Mat) :
    Mat.EqS (matmul A (colSlice B 0 B.cols)) (matmul A B) := by
  refine ⟨Eq.refl _, by simp [matmul, colSlice, Nat.zero_min], ?_⟩
  intro i j hj
  simp only [matmul, colSlice, Nat.zero_min, Nat.zero_add]

/-! ### The assembler: `concat` is concatenation of the unsplit block -/

/-- Folding the first `p` consecutive width-`split` slices of `blk` onto
`acc` concatenates `acc` with the prefix slice of width `p * split`
(clamped). -/
theorem foldl_slices_eq (acc blk : Mat) (split : Nat) :
    ∀ p, Mat.EqS
      (((List.range p).map fun ind =>
        colSlice blk (ind * split) (ind * split + split)).foldl hconcat acc)
      (hconcat acc (colSlice blk 0 (p * split))) := by
  intro p
  induction p with
  | zero =>
      simp only [List.range_zero, List.map_nil, List.foldl_nil, Nat.zero_mul]
      refine (hconcat_cols_zero acc ?_).symm
      simp [colSlice, Nat.zero_min]
  | succ p ih =>
      rw [List.range_succ, List.map_append, List.foldl_append]
      simp only [List.map_cons, List.map_nil, List.foldl_cons, List.foldl_nil]
      refine ((hconcat_congr_left _ ih).trans ?_)
      refine (hconcat_assoc _ _ _).trans ?_
      refine (hconcat_congr_right acc (colSlice_join blk ?_)).trans ?_
      · exact Nat.le_add_right _ _
      · have hps : p * split + split = (p + 1) * split := by ring
        rw [hps]
        exact Mat.EqS.rfl _

/-- The script's sub-split append equals appending the unsplit block: for
any sub-split width ≥ 1, `concat (some acc) blk split` has exactly the
content of `hconcat acc blk`. -/
theorem concat_spec (acc blk : Mat) (split : Nat) (hs : 1 ≤ split) :
    Mat.EqS (concat (some acc) blk split) (hconcat acc blk) := by
  have hdle : blk.cols / split * split ≤ blk.cols := Nat.div_mul_le_self _ _
  have hcomm : blk.cols / split * split = split * (blk.cols / split) :=
    Nat.mul_comm _ _
  by_cases hmod : blk.cols % split > 0
  · have hlt : blk.cols < blk.cols / split * split + split := by
      have h1 := Nat.div_add_mod blk.cols split
      have h2 := Nat.mod_lt blk.cols (show 0 < split by omega)
      omega
    simp only [concat, da_from_array, if_pos hmod]
    refine (hconcat_congr_left _ (foldl_slices_eq acc blk split _)).trans ?_
    refine (hconcat_assoc _ _ _).trans ?_
    refine (hconcat_congr_right acc (colSlice_join blk (Nat.le_add_right _ _))).trans ?_
    exact hconcat_colSlice_ge acc (by omega)
  · have hdvd : blk.cols / split * split = blk.cols := by
      have h1 := Nat.div_add_mod blk.cols split
      omega
    simp only [concat, da_from_array, if_neg hmod]
    refine (foldl_slices_eq acc blk split _).trans ?_
    rw [hdvd]
    exact hconcat_colSlice_ge acc le_rfl

/-! ### The blocked loop -/

theorem SPLIT_SIZE_pos : 1 ≤ SPLIT_SIZE := by
  simp [SPLIT_SIZE]

theorem loopState_succ (A B : Mat) (w k : Nat) :
    loopState A B w (k + 1) =
      loopStep A B (loopState A B w k) (w + w * k) := by
  unfold loopState
  rw [List.range'_concat, List.foldl_append]
  simp

theorem loopState_snd (A B : Mat) (w : Nat) :
    ∀ k, (loopState A B w k).2 = k * w := by
  intro k
  induction k with
  | zero => simp [loopState]
  | succ k ih =>
      rw [loopState_succ]
      simp only [loopStep]
      ring

/-- After `k ≥ 1` loop iterations the accumulated array holds exactly
`A · B[:, 0:k*w]`. -/
theorem loopState_fst (A B : Mat) (w : Nat) :
    ∀ k, 1 ≤ k → ∃ M, (loopState A B w k).1 = some M ∧
      Mat.EqS M (matmul A (colSlice B 0 (k * w))) := by
  intro k
  induction k with
  | zero => omega
  | succ k ih =>
      intro _
      rcases Nat.eq_zero_or_pos k with hk | hk
      · subst hk
        refine ⟨matmul A (colSlice B 0 w), ?_, ?_⟩
        · rw [loopState_succ]
          simp [loopState, loopStep, concat, da_from_array, asnumpy]
        · rw [Nat.one_mul]
          exact Mat.EqS.rfl _
      · obtain ⟨M, hM, hMeq⟩ := ih hk
        rw [loopState_succ]
        simp only [loopStep, hM, loopState_snd, asnumpy]
        refine ⟨_, Eq.refl _, ?_⟩
        refine (concat_spec M _ SPLIT_SIZE SPLIT_SIZE_pos).trans ?_
        refine (hconcat_congr_left _ hMeq).trans ?_
        have hw1 : w + w * k = (k + 1) * w := by ring
        rw [hw1]
        exact matmul_slice_join A B (by
          have : k * w ≤ (k + 1) * w := Nat.mul_le_mul_right w (by omega)
          exact this)

/-- The number of loop iterations `range(w, n, w)` performs, for `w ≥ 1`,
is `(n-1)/w`. -/
theorem pyRangeLen_eq (n w : Nat) (hw : 1 ≤ w) :
    pyRangeLen w n w = (n - 1) / w := by
  unfold pyRangeLen
  rcases Nat.lt_or_ge n w with h | h
  · rw [Nat.div_eq_of_lt (by omega), Nat.div_eq_of_lt (by omega)]
  · congr 1
    omega

/-- Content correctness of blocked mode: for any block width ≥ 1, the
result assembled by the loop plus final flush is `A · B`,
element-for-element. -/
theorem blockedResult_correct (A B : Mat) (w : Nat) (hw : 1 ≤ w) :
    Mat.EqS (blockedResult A B w) (matmul A B) := by
  unfold blockedResult
  simp only []
  rcases Nat.eq_zero_or_pos (pyRangeLen w B.cols w) with hk | hk
  · rw [hk]
    simp only [loopState, List.range'_zero, List.foldl_nil, concat,
      da_from_array, asnumpy]
    exact matmul_colSlice_full A B
  · obtain ⟨M, hM, hMeq⟩ := loopState_fst A B w _ hk
    rw [hM]
    simp only [loopState_snd, asnumpy]
    refine (concat_spec M _ SPLIT_SIZE SPLIT_SIZE_pos).trans ?_
    refine (hconcat_congr_left _ hMeq).trans ?_
    have hle : pyRangeLen w B.cols w * w ≤ B.cols := by
      rw [pyRangeLen_eq _ _ hw]
      have h1 : (B.cols - 1) / w * w ≤ B.cols - 1 := Nat.div_mul_le_self _ _
      have h2 : 1 ≤ B.cols := by
        by_contra hco
        have : B.cols = 0 := by omega
        rw [pyRangeLen_eq _ _ hw, this] at hk
        simp at hk
      omega
    refine (matmul_slice_join A B hle).trans ?_
    exact matmul_colSlice_full A B

/-! ### Block-range bookkeeping -/

/-- Closed form of the loop's range bookkeeping: after `k` iterations the
recorded ranges are `[0,w), [w,2w), …, [(k-1)w, kw)` and the cursor is
`k*w`. -/
theorem loopRangesState_eq (w : Nat) :
    ∀ k, loopRangesState w k =
      ((List.range k).map fun t => (t * w, (t + 1) * w), k * w) := by
  intro k
  induction k with
  | zero => simp [loopRangesState]
  | succ k ih =>
      unfold loopRangesState at ih ⊢
      rw [List.range'_concat, List.foldl_append, ih]
      simp only [List.foldl_cons, List.foldl_nil, rangeStep]
      rw [List.range_succ, List.map_append]
      have hw1 : w + w * k = (k + 1) * w := by ring
      rw [hw1]
      simp

theorem finalPrev_eq (n w : Nat) (hw : 1 ≤ w) :
    finalPrev n w = (n - 1) / w * w := by
  unfold finalPrev
  rw [pyRangeLen_eq _ _ hw, loopRangesState_eq]

theorem blockRanges_def (n w : Nat) :
    blockRanges n w =
      ((List.range (pyRangeLen w n w)).map fun t => (t * w, (t + 1) * w))
        ++ [(pyRangeLen w n w * w, n)] := by
  unfold blockRanges
  rw [loopRangesState_eq]

/-- Closed form of all processed ranges, for `n ≥ 1`, `w ≥ 1`: the `t`-th
range is `[t*w, min ((t+1)*w) n)`, for `t = 0, …, (n-1)/w`. -/
theorem blockRanges_eq (n w : Nat) (hn : 1 ≤ n) (hw : 1 ≤ w) :
    blockRanges n w =
      (List.range ((n - 1) / w + 1)).map fun t => (t * w, min ((t + 1) * w) n) := by
  have hq := Nat.div_add_mod (n - 1) w
  have hr : (n - 1) % w < w := Nat.mod_lt _ (by omega)
  have hcomm : (n - 1) / w * w = w * ((n - 1) / w) := Nat.mul_comm _ _
  rw [blockRanges_def, pyRangeLen_eq _ _ hw, List.range_succ, List.map_append]
  congr 1
  · refine List.map_congr_left fun t ht => ?_
    rw [List.mem_range] at ht
    have ht1 : (t + 1) * w ≤ (n - 1) / w * w := Nat.mul_le_mul_right w (by omega)
    have : min ((t + 1) * w) n = (t + 1) * w := min_eq_left (by omega)
    rw [this]
  · have : min (((n - 1) / w + 1) * w) n = n := by
      refine min_eq_right ?_
      have hexp : ((n - 1) / w + 1) * w = (n - 1) / w * w + w := by ring
      omega
    simp only [List.map_cons, List.map_nil]
    rw [this]

/-- The cursor at the final flush stays strictly below `n`, and the flush
width `n - prev` is between 1 and `w`; when `w` divides `n` the flush
processes a final full-width block. -/
theorem finalPrev_lt (n w : Nat) (hn : 1 ≤ n) (hw : 1 ≤ w) :
    finalPrev n w < n ∧ 1 ≤ n - finalPrev n w ∧ n - finalPrev n w ≤ w ∧
      (n % w = 0 → n - finalPrev n w = w) := by
  rw [finalPrev_eq _ _ hw]
  have hq := Nat.div_add_mod (n - 1) w
  have hr : (n - 1) % w < w := Nat.mod_lt _ (by omega)
  have hcomm : (n - 1) / w * w = w * ((n - 1) / w) := Nat.mul_comm _ _
  refine ⟨by omega, by omega, by omega, fun hd => ?_⟩
  have hq2 := Nat.div_add_mod n w
  have hn_eq : n = w * (n / w) := by omega
  have hq1 : 1 ≤ n / w := by
    rcases Nat.eq_zero_or_pos (n / w) with h0 | h0
    · rw [h0, Nat.mul_zero] at hn_eq
      omega
    · exact h0
  have hx : w * (n / w - 1) + w = w * (n / w) := by
    have h1 : n / w - 1 + 1 = n / w := by omega
    calc w * (n / w - 1) + w = w * (n / w - 1 + 1) := by ring
      _ = w * (n / w) := by rw [h1]
  have hdiv : (n - 1) / w = n / w - 1 := by
    rw [show n - 1 = w - 1 + w * (n / w - 1) from by omega,
      Nat.add_mul_div_left _ _ (show 0 < w by omega),
      Nat.div_eq_of_lt (show w - 1 < w by omega)]
    omega
  have hcomm2 : (n / w - 1) * w = w * (n / w - 1) := Nat.mul_comm _ _
  rw [hdiv]
  omega

/-- Appending the loop's first `k` recorded ranges to the assembler, in
order, reproduces the loop's accumulated state exactly. -/
theorem assemble_loop (A B : Mat) (w : Nat) :
    ∀ k, assembleRanges A B ((List.range k).map fun t => (t * w, (t + 1) * w))
      = (loopState A B w k).1 := by
  intro k
  induction k with
  | zero => simp [assembleRanges, loopState]
  | succ k ih =>
      rw [List.range_succ, List.map_append]
      unfold assembleRanges at ih ⊢
      rw [List.foldl_append, ih, loopState_succ]
      simp only [List.map_cons, List.map_nil, List.foldl_cons, List.foldl_nil,
        loopStep, loopState_snd]
      have hw1 : w + w * k = (k + 1) * w := by ring
      rw [hw1]

/-- The blocked-mode result is exactly the fold of the assembler over the
processed ranges in their left-to-right order. -/
theorem assembleRanges_blockRanges (A B : Mat) (w : Nat) :
    assembleRanges A B (blockRanges B.cols w) = some (blockedResult A B w) := by
  rw [blockRanges_def]
  unfold assembleRanges
  rw [List.foldl_append]
  have hloop := assemble_loop A B w (pyRangeLen w B.cols w)
  unfold assembleRanges at hloop
  rw [hloop]
  unfold blockedResult
  simp only [List.foldl_cons, List.foldl_nil, loopState_snd]

theorem finalPrev_def (n w : Nat) : finalPrev n w = pyRangeLen w n w * w := by
  unfold finalPrev
  rw [loopRangesState_eq]

/-! ### Claims -/

/-- C1: for every pair of compatible matrices A (m×k) and B (k×n) over
exact arithmetic, the result assembled by the blocked-mode path
(column-block multiplies followed by incremental concatenation) is
element-for-element equal to the direct-mode single multiply A·B, for
every block width ≥ 1, whether or not the width divides n evenly. -/
theorem claim_C1_blocked_equals_direct (A B : Mat) (w : Nat)
    (hw : 1 ≤ w) (_hAB : A.cols = B.rows) :
    Mat.Eq (blockedResult A B w) (matmul A B) :=
  (blockedResult_correct A B w hw).toEq

theorem claim_C1_witness :
    1 ≤ 2 ∧ Aex.cols = Bex.rows ∧
      Mat.Eq (blockedResult Aex Bex 2) (matmul Aex Bex) :=
  ⟨by decide, rfl, claim_C1_blocked_equals_direct Aex Bex 2 (by decide) rfl⟩

/-- C2: for every pair of compatible input matrices, the final result the
program saves (in either mode) has exactly A.rows rows and B.cols
columns. -/
theorem claim_C2_result_shape (A B : Mat) (c : Bool) (R : Mat)
    (hAB : A.cols = B.rows) (hR : (mainRun A B c).artifact = some R) :
    R.rows = A.rows ∧ R.cols = B.cols := by
  unfold mainRun at hR
  rw [if_neg (by simp [hAB])] at hR
  cases hmode : mainMode A B c <;> rw [hmode] at hR <;> simp at hR
  · subst hR
    exact ⟨rfl, rfl⟩
  · subst hR
    have h := blockedResult_correct A B GPU_COL_LIMIT (by simp [GPU_COL_LIMIT])
    exact ⟨h.1, h.2.1⟩

theorem claim_C2_witness :
    Aex.cols = Bex.rows ∧ (mainRun Aex Bex true).artifact = some (matmul Aex Bex) ∧
      (matmul Aex Bex).rows = Aex.rows ∧ (matmul Aex Bex).cols = Bex.cols :=
  ⟨rfl, rfl, claim_C2_result_shape Aex Bex true (matmul Aex Bex) rfl rfl⟩

/-- C3: on mismatched inner dimensions the program exits with status 1
after printing both shapes in the diagnostic, performs no multiplication
and produces no output artifact. -/
theorem claim_C3_dimension_mismatch (A B : Mat) (c : Bool)
    (h : A.cols ≠ B.rows) :
    mainRun A B c =
      { exitCode := 1
        diagShapes := some ((A.rows, A.cols), (B.rows, B.cols))
        artifact := none
        matmulCount := 0 } := by
  unfold mainRun
  rw [if_pos h]

theorem claim_C3_witness :
    Amis.cols ≠ Bmis.rows ∧
      mainRun Amis Bmis false =
        { exitCode := 1
          diagShapes := some ((4, 3), (5, 4))
          artifact := none
          matmulCount := 0 } :=
  ⟨by decide, claim_C3_dimension_mismatch Amis Bmis false (by decide)⟩

/-- C4: the program selects direct mode iff cpu_only is set or
A.rows · B.cols does not exceed the element-count threshold, which is
250,000,000; in particular a product count equal to the threshold selects
direct mode. -/
theorem claim_C4_mode_selection (A B : Mat) (c : Bool) :
    (mainMode A B c = Mode.direct ↔
      c = true ∨ A.rows * B.cols ≤ GPU_IND_LIMIT) ∧
      GPU_IND_LIMIT = 250000000 := by
  refine ⟨?_, rfl⟩
  unfold mainMode
  by_cases hgt : A.rows * B.cols > GPU_IND_LIMIT
  · cases c <;> simp [hgt]
  · cases c <;> simp [hgt]
    omega

/-- C5: in blocked mode the processed column ranges (loop ranges plus the
final flush range) have the closed form `[t·w, min((t+1)·w, n))` for
`t = 0..(n-1)/w`; they are nonempty of width ≤ w, pairwise disjoint in
strictly ascending order, cover `[0, n)` exactly, and the blocked result
is assembled by folding the blocks over exactly this list in order. -/
theorem claim_C5_block_ranges (n w : Nat) (hn : 1 ≤ n) (hw : 1 ≤ w) :
    (blockRanges n w =
      (List.range ((n - 1) / w + 1)).map fun t => (t * w, min ((t + 1) * w) n))
    ∧ (∀ r ∈ blockRanges n w, r.1 < r.2 ∧ r.2 - r.1 ≤ w)
    ∧ (blockRanges n w).Pairwise (fun r s => r.2 ≤ s.1)
    ∧ (∀ j, j < n ↔ ∃ r ∈ blockRanges n w, r.1 ≤ j ∧ j < r.2)
    ∧ (∀ A B : Mat, B.cols = n →
        assembleRanges A B (blockRanges n w) = some (blockedResult A B w)) := by
  have hclosed := blockRanges_eq n w hn hw
  have hkw : (n - 1) / w * w ≤ n - 1 := Nat.div_mul_le_self _ _
  have hqn := Nat.div_add_mod (n - 1) w
  have hrn : (n - 1) % w < w := Nat.mod_lt _ (by omega)
  have hcn : (n - 1) / w * w = w * ((n - 1) / w) := Nat.mul_comm _ _
  refine ⟨hclosed, ?_, ?_, ?_, ?_⟩
  · intro r hr
    rw [hclosed] at hr
    obtain ⟨t, htm, rfl⟩ := List.mem_map.mp hr
    rw [List.mem_range] at htm
    have ht1 : (t + 1) * w ≤ ((n - 1) / w + 1) * w :=
      Nat.mul_le_mul_right w (by omega)
    have hsum : ((n - 1) / w + 1) * w = (n - 1) / w * w + w := by ring
    have hsum2 : (t + 1) * w = t * w + w := by ring
    have hminle1 : min ((t + 1) * w) n ≤ (t + 1) * w := min_le_left _ _
    constructor
    · rcases Nat.eq_or_lt_of_le (Nat.le_of_lt_succ htm) with heq | hlt
      · have : min ((t + 1) * w) n = n := by
          refine min_eq_right ?_
          rw [heq] at hsum2 ⊢
          omega
        omega
      · have ht2 : (t + 1) * w ≤ (n - 1) / w * w := Nat.mul_le_mul_right w (by omega)
        have : min ((t + 1) * w) n = (t + 1) * w := min_eq_left (by omega)
        omega
    · omega
  · rw [hclosed]
    rw [List.pairwise_map]
    refine List.Pairwise.imp ?_ (List.pairwise_lt_range _)
    intro a b hab
    have h1 : min ((a + 1) * w) n ≤ (a + 1) * w := min_le_left _ _
    have h2 : (a + 1) * w ≤ b * w := Nat.mul_le_mul_right w (by omega)
    simp only []
    omega
  · intro j
    constructor
    · intro hj
      have hjd : j / w ≤ (n - 1) / w := Nat.div_le_div_right (by omega)
      refine ⟨(j / w * w, min ((j / w + 1) * w) n), ?_, ?_, ?_⟩
      · rw [hclosed]
        exact List.mem_map.mpr ⟨j / w, List.mem_range.mpr (by omega), rfl⟩
      · exact Nat.div_mul_le_self _ _
      · have hq := Nat.div_add_mod j w
        have hr2 : j % w < w := Nat.mod_lt _ (by omega)
        have hsum : (j / w + 1) * w = j / w * w + w := by ring
        have hcm : j / w * w = w * (j / w) := Nat.mul_comm _ _
        simp only [lt_min_iff]
        omega
    · intro ⟨r, hr, hr1, hr2⟩
      rw [hclosed] at hr
      obtain ⟨t, _, rfl⟩ := List.mem_map.mp hr
      have : min ((t + 1) * w) n ≤ n := min_le_right _ _
      omega
  · intro A B hB
    subst hB
    exact assembleRanges_blockRanges A B w

theorem claim_C5_witness :
    1 ≤ 5 ∧ 1 ≤ 2 ∧
      ((blockRanges 5 2 =
        (List.range ((5 - 1) / 2 + 1)).map fun t => (t * 2, min ((t + 1) * 2) 5))
      ∧ (∀ r ∈ blockRanges 5 2, r.1 < r.2 ∧ r.2 - r.1 ≤ 2)
      ∧ (blockRanges 5 2).Pairwise (fun r s => r.2 ≤ s.1)
      ∧ (∀ j, j < 5 ↔ ∃ r ∈ blockRanges 5 2, r.1 ≤ j ∧ j < r.2)
      ∧ (∀ A B : Mat, B.cols = 5 →
          assembleRanges A B (blockRanges 5 2) = some (blockedResult A B 2))) :=
  ⟨by decide, by decide, claim_C5_block_ranges 5 2 (by decide) (by decide)⟩

/-- C6: appending a block through the sub-split path (full sub-blocks of
the given width, then one clamped remainder sub-block when the width does
not divide the block) has exactly the content of appending the block
unsplit; and the remainder slice, though written with a fixed-width
endpoint past the block's end, contributes exactly the last
`cols mod split` columns. -/
theorem claim_C6_subsplit_append (acc blk : Mat) (split : Nat) (hs : 1 ≤ split) :
    Mat.Eq (concat (some acc) blk split) (hconcat acc blk)
    ∧ (0 < blk.cols % split →
        (colSlice blk (blk.cols / split * split) (blk.cols / split * split + split)).cols
          = blk.cols % split) := by
  refine ⟨(concat_spec acc blk split hs).toEq, fun hm => ?_⟩
  have h1 := Nat.div_add_mod blk.cols split
  have h2 : blk.cols % split < split := Nat.mod_lt _ (by omega)
  have hcomm : blk.cols / split * split = split * (blk.cols / split) :=
    Nat.mul_comm _ _
  have hle : blk.cols / split * split ≤ blk.cols := Nat.div_mul_le_self _ _
  simp only [colSlice]
  rw [min_eq_left hle, min_eq_right (by omega)]
  omega

theorem claim_C6_witness :
    1 ≤ 2 ∧
      (Mat.Eq (concat (some Wacc) Wblk 2) (hconcat Wacc Wblk)
      ∧ (0 < Wblk.cols % 2 →
          (colSlice Wblk (Wblk.cols / 2 * 2) (Wblk.cols / 2 * 2 + 2)).cols
            = Wblk.cols % 2)) :=
  ⟨by decide, claim_C6_subsplit_append Wacc Wblk 2 (by decide)⟩

/-- C7: appending to an unset accumulator installs the new block as a
view; appending to a non-empty accumulator of matching row count grows
the column count by exactly the block's column count while the row count
is unchanged and equal to the block's. -/
theorem claim_C7_append_invariant (acc blk : Mat) (h : acc.rows = blk.rows) :
    concat none blk SPLIT_SIZE = blk
    ∧ (concat (some acc) blk SPLIT_SIZE).cols = acc.cols + blk.cols
    ∧ (concat (some acc) blk SPLIT_SIZE).rows = acc.rows
    ∧ (concat (some acc) blk SPLIT_SIZE).rows = blk.rows := by
  have hs := concat_spec acc blk SPLIT_SIZE SPLIT_SIZE_pos
  exact ⟨rfl, hs.2.1, hs.1, hs.1.trans h⟩

theorem claim_C7_witness :
    Wacc.rows = Wblk.rows ∧
      (concat none Wblk SPLIT_SIZE = Wblk
      ∧ (concat (some Wacc) Wblk SPLIT_SIZE).cols = Wacc.cols + Wblk.cols
      ∧ (concat (some Wacc) Wblk SPLIT_SIZE).rows = Wacc.rows
      ∧ (concat (some Wacc) Wblk SPLIT_SIZE).rows = Wblk.rows) :=
  ⟨rfl, claim_C7_append_invariant Wacc Wblk rfl⟩

/-- C8 counterexample: with A of shape (100000,1) and B of shape (1,5000)
the program runs in blocked mode and n = 5000 is an exact multiple of the
block width 5000; yet the loop performs zero iterations, the accumulator
is still unset at the flush, and the mandatory final flush appends all
5000 columns — not zero — so it does not leave the accumulated result
unchanged. -/
theorem claim_C8_counterexample :
    mainMode Abig Bbig false = Mode.blocked
    ∧ Bbig.cols % GPU_COL_LIMIT = 0
    ∧ (loopState Abig Bbig GPU_COL_LIMIT
        (pyRangeLen GPU_COL_LIMIT Bbig.cols GPU_COL_LIMIT)).1 = none
    ∧ Bbig.cols - finalPrev Bbig.cols GPU_COL_LIMIT = 5000
    ∧ (blockedResult Abig Bbig GPU_COL_LIMIT).cols = 5000 := by
  refine ⟨by decide, by decide, ?_, by decide, ?_⟩
  · rfl
  · rfl

/-- C8 amended: in blocked mode, when n is an exact multiple of the block
width the mandatory final flush appends exactly block-width columns (the
loop leaves the last full-width block to the flush); a zero-width flush
never occurs. -/
theorem claim_C8_amended_full_width_flush (n w : Nat) (hn : 1 ≤ n)
    (hw : 1 ≤ w) (hd : n % w = 0) :
    (blockRanges n w).getLast? = some (finalPrev n w, n)
    ∧ n - finalPrev n w = w
    ∧ 0 < n - finalPrev n w := by
  have h := finalPrev_lt n w hn hw
  refine ⟨?_, h.2.2.2 hd, by omega⟩
  rw [blockRanges_def, List.getLast?_concat, finalPrev_def]

theorem claim_C8_witness :
    1 ≤ 10 ∧ 1 ≤ 5 ∧ 10 % 5 = 0 ∧
      ((blockRanges 10 5).getLast? = some (finalPrev 10 5, 10)
      ∧ 10 - finalPrev 10 5 = 5
      ∧ 0 < 10 - finalPrev 10 5) :=
  ⟨by decide, by decide, by decide,
    claim_C8_amended_full_width_flush 10 5 (by decide) (by decide) (by decide)⟩

/-- C9: appending a block with zero columns to a non-empty accumulated
result is a no-op: the returned result is logically equal to (indeed, in
this model literally is) the accumulated result before the append. -/
theorem claim_C9_zero_width_append (acc blk : Mat) (h : blk.cols = 0) :
    Mat.Eq (concat (some acc) blk SPLIT_SIZE) acc := by
  have heq : concat (some acc) blk SPLIT_SIZE = acc := by
    simp [concat, h]
  rw [heq]
  exact (Mat.EqS.rfl acc).toEq

theorem claim_C9_witness :
    Wzero.cols = 0 ∧ Mat.Eq (concat (some Wacc) Wzero SPLIT_SIZE) Wacc :=
  ⟨rfl, claim_C9_zero_width_append Wacc Wzero rfl⟩

/-- C10: in blocked mode, for every n ≥ 1 the cursor at the final flush is
strictly below n, so the flush range `[prev, n)` has width between 1 and
the block width; a zero-width final block never occurs, and when the
width divides n evenly the flush gets the last full-width block. -/
theorem claim_C10_final_flush_nonempty (n w : Nat) (hn : 1 ≤ n) (hw : 1 ≤ w) :
    finalPrev n w < n
    ∧ 1 ≤ n - finalPrev n w
    ∧ n - finalPrev n w ≤ w
    ∧ (n % w = 0 → n - finalPrev n w = w) :=
  finalPrev_lt n w hn hw

theorem claim_C10_witness :
    1 ≤ 5000 ∧ 1 ≤ 5000 ∧
      (finalPrev 5000 5000 < 5000
      ∧ 1 ≤ 5000 - finalPrev 5000 5000
      ∧ 5000 - finalPrev 5000 5000 ≤ 5000
      ∧ (5000 % 5000 = 0 → 5000 - finalPrev 5000 5000 = 5000)) :=
  ⟨by decide, by decide,
    claim_C10_final_flush_nonempty 5000 5000 (by decide) (by decide)⟩

end GpuMatmul
